import Mathlib

/-!
# Concurrency-Sum-Of-A-Vector: a verification development

Shallow embedding of `src/main.cpp`.

* `std::vector<int>` is a `List Int`; `vec[i]` is `vec[i]?`, and an index outside the
  vector (undefined behaviour in C++) makes the enclosing function return `none`.
* `unsigned long long` is a `Nat` below `2 ^ 64`; every `+=` reduces modulo `2 ^ 64`.
* An `int` operand of `tmp_sum += vec[i]` is first converted to `unsigned long long`
  (`toU64`), as the usual arithmetic conversions of C++ prescribe.
* A loop `for (auto i = beg; i < end; ++i)` runs `end - beg` times (no time at all when
  `end ≤ beg`) with `i = beg, beg + 1, ...`; the loops below recurse on that trip count.
* The workers of one strategy run in parallel. They only read the vector, so what is left
  of the scheduling is the order in which the threads of the mutex and of the spinlock
  strategy take their merge step `sum += tmp_sum` under the lock; that order is a
  parameter (`order`) of `merge_mutex` and `merge_spinlock`.
* The spinlock itself is modelled by a step function on a state of the flag, the shared
  `sum` and the program counters of the threads (`step`, `run`): the steps of the threads
  interleave in any order, a `test_and_set`, a `clear`, a read and a write of `sum` being
  one step each, and every step sees the values the steps before it left. The
  `memory_order` arguments have no counterpart in this model.
* The random draws of `main` are a parameter `draw`: `draw k` is what call number `k` of
  `uniformDist(engine)` returns.
-/

namespace SumOfVector

/-! ## Constants (main.cpp, lines 10-16) -/

/-- Line 10: `constexpr long long size = 100000000`. -/
def size : Nat := 100000000

/-- Line 13: `constexpr long long first = 25000000`. -/
def first : Nat := 25000000

/-- Line 14: `constexpr long long second = 50000000`. -/
def second : Nat := 50000000

/-- Line 15: `constexpr long long third = 75000000`. -/
def third : Nat := 75000000

/-- Line 16: `constexpr long long fourth = 100000000`. -/
def fourth : Nat := 100000000

/-! ## Machine arithmetic -/

/-- Conversion of an `int` value to `unsigned long long`: the value modulo `2 ^ 64`. -/
def toU64 (x : Int) : Nat := (x % (2 : Int) ^ 64).toNat

/-! ## The four workers (main.cpp, lines 39-91) -/

/-- Lines 44-48 of `my_sum`: the loop, `n` iterations left, at index `i`. -/
def my_sum_loop (vec : List Int) : Nat → Nat → Nat → Option Nat
  | 0, _, tmp_sum => some tmp_sum
  | n + 1, i, tmp_sum =>
    match vec[i]? with
    | none => none
    | some x => my_sum_loop vec n (i + 1) ((tmp_sum + toU64 x) % 2 ^ 64)

/-- Lines 39-51: `my_sum(sum, vec, beg, end)`. The result is the new value of the
referenced accumulator `sum`; the `lock_guard` makes line 50 one indivisible step. -/
def my_sum (sum : Nat) (vec : List Int) (beg end_ : Nat) : Option Nat :=
  match my_sum_loop vec (end_ - beg) beg 0 with
  | none => none
  | some tmp_sum => some ((sum + tmp_sum) % 2 ^ 64)

/-- Lines 57-61 of `my_sum_async`: the loop, `n` iterations left, at index `i`. -/
def my_sum_async_loop (vec : List Int) : Nat → Nat → Nat → Option Nat
  | 0, _, tmp_sum => some tmp_sum
  | n + 1, i, tmp_sum =>
    match vec[i]? with
    | none => none
    | some x => my_sum_async_loop vec n (i + 1) ((tmp_sum + toU64 x) % 2 ^ 64)

/-- Lines 53-63: `my_sum_async(vec, beg, end)` returns `tmp_sum`. -/
def my_sum_async (vec : List Int) (beg end_ : Nat) : Option Nat :=
  my_sum_async_loop vec (end_ - beg) beg 0

/-- The shared state of a `std::promise<unsigned long long>` and its future:
`none` while no value has been set. -/
structure Promise where
  value : Option Nat
  deriving DecidableEq, Repr

/-- `prom.set_value(v)`: stores `v`; a second `set_value` throws, modelled as `none`. -/
def Promise.set_value (prom : Promise) (v : Nat) : Option Promise :=
  match prom.value with
  | none => some { value := some v }
  | some _ => none

/-- `fut.get()`: the stored value (`none`: the future would block for ever). -/
def Promise.get (prom : Promise) : Option Nat := prom.value

/-- Lines 70-74 of `my_sum_promise`: the loop, `n` iterations left, at index `i`. -/
def my_sum_promise_loop (vec : List Int) : Nat → Nat → Nat → Option Nat
  | 0, _, tmp_sum => some tmp_sum
  | n + 1, i, tmp_sum =>
    match vec[i]? with
    | none => none
    | some x => my_sum_promise_loop vec n (i + 1) ((tmp_sum + toU64 x) % 2 ^ 64)

/-- Lines 65-76: `my_sum_promise(prom, vec, beg, end)`; the result is the state of the
promise after `prom.set_value(tmp_sum)`. -/
def my_sum_promise (prom : Promise) (vec : List Int) (beg end_ : Nat) : Option Promise :=
  match my_sum_promise_loop vec (end_ - beg) beg 0 with
  | none => none
  | some tmp_sum => prom.set_value tmp_sum

/-- Lines 83-87 of `my_sum_spinlock`: the loop, `n` iterations left, at index `i`. -/
def my_sum_spinlock_loop (vec : List Int) : Nat → Nat → Nat → Option Nat
  | 0, _, tmp_sum => some tmp_sum
  | n + 1, i, tmp_sum =>
    match vec[i]? with
    | none => none
    | some x => my_sum_spinlock_loop vec n (i + 1) ((tmp_sum + toU64 x) % 2 ^ 64)

/-- Lines 78-91: `my_sum_spinlock(sum, vec, beg, end)`. The result is the new value of the
referenced accumulator `sum`; line 89 runs between `sp_lock.lock()` and `sp_lock.unlock()`
and is one indivisible step here (the lock itself is modelled step by step by `step` below). -/
def my_sum_spinlock (sum : Nat) (vec : List Int) (beg end_ : Nat) : Option Nat :=
  match my_sum_spinlock_loop vec (end_ - beg) beg 0 with
  | none => none
  | some tmp_sum => some ((sum + tmp_sum) % 2 ^ 64)

/-! ## `main` (main.cpp, lines 93-237) -/

/-- Lines 107-110: the `push_back` loop, `n` iterations left, loop counter `i`;
`draw k` is the value that call number `k` of `uniformDist(engine)` returns. -/
def fill (draw : Nat → Int) : Nat → Nat → List Int → List Int
  | 0, _, random_values => random_values
  | n + 1, i, random_values => fill draw n (i + 1) (random_values ++ [draw i])

/-- Lines 100-110: the vector `random_values` once it is filled. -/
def random_values (draw : Nat → Int) : List Int := fill draw size 0 []

/-- Lines 114-116: `sum = 0; for (auto n : random_values) sum += n;`. -/
def loop_sum (vec : List Int) : Nat :=
  vec.foldl (fun sum n => (sum + toU64 n) % 2 ^ 64) 0

/-- The `(beg, end)` arguments of the four workers of one strategy, the boundaries being
`0, first, second, third, fourth` in `main`. -/
def ranges (b0 b1 b2 b3 b4 : Nat) : List (Nat × Nat) :=
  [(b0, b1), (b1, b2), (b2, b3), (b3, b4)]

/-- The threads of the mutex strategy reach line 50 (`sum += tmp_sum`, under the lock) in
the order `order`, a list of thread numbers `0..3`; `sum` is the shared accumulator. -/
def merge_mutex (vec : List Int) (threads : List (Nat × Nat)) : List Nat → Nat → Option Nat
  | [], sum => some sum
  | k :: order, sum =>
    match threads[k]? with
    | none => none
    | some (beg, end_) =>
      match my_sum sum vec beg end_ with
      | none => none
      | some sum' => merge_mutex vec threads order sum'

/-- Lines 131-141: `sum_1` after `t1 .. t4` are joined, the merge steps taken in `order`. -/
def threads_mutex (vec : List Int) (b0 b1 b2 b3 b4 : Nat) (order : List Nat) : Option Nat :=
  merge_mutex vec (ranges b0 b1 b2 b3 b4) order 0

/-- Lines 156-163: `sum_2 = fut.get() + fut_1.get() + fut_2.get() + fut_3.get()`. -/
def async_sum (vec : List Int) (b0 b1 b2 b3 b4 : Nat) : Option Nat :=
  match my_sum_async vec b0 b1, my_sum_async vec b1 b2,
      my_sum_async vec b2 b3, my_sum_async vec b3 b4 with
  | some f, some f_1, some f_2, some f_3 =>
    some ((((f + f_1) % 2 ^ 64 + f_2) % 2 ^ 64 + f_3) % 2 ^ 64)
  | _, _, _, _ => none

/-- Lines 179-194: four fresh promises, one worker each, then
`sum_3 = fut_p.get() + fut_p_1.get() + fut_p_2.get() + fut_p_3.get()`. -/
def promise_sum (vec : List Int) (b0 b1 b2 b3 b4 : Nat) : Option Nat :=
  match my_sum_promise { value := none } vec b0 b1,
      my_sum_promise { value := none } vec b1 b2,
      my_sum_promise { value := none } vec b2 b3,
      my_sum_promise { value := none } vec b3 b4 with
  | some prom, some prom_1, some prom_2, some prom_3 =>
    match prom.get, prom_1.get, prom_2.get, prom_3.get with
    | some f, some f_1, some f_2, some f_3 =>
      some ((((f + f_1) % 2 ^ 64 + f_2) % 2 ^ 64 + f_3) % 2 ^ 64)
    | _, _, _, _ => none
  | _, _, _, _ => none

/-- The threads of the spinlock strategy reach line 89 (`sum += tmp_sum`, between `lock`
and `unlock`) in the order `order`, a list of thread numbers `0..3`. -/
def merge_spinlock (vec : List Int) (threads : List (Nat × Nat)) :
    List Nat → Nat → Option Nat
  | [], sum => some sum
  | k :: order, sum =>
    match threads[k]? with
    | none => none
    | some (beg, end_) =>
      match my_sum_spinlock sum vec beg end_ with
      | none => none
      | some sum' => merge_spinlock vec threads order sum'

/-- Lines 213-223: `sum_4` after `t_sp_1 .. t_sp_4` are joined, the merge steps taken in
`order`. -/
def threads_spinlock (vec : List Int) (b0 b1 b2 b3 b4 : Nat) (order : List Nat) :
    Option Nat :=
  merge_spinlock vec (ranges b0 b1 b2 b3 b4) order 0

/-- The orders in which four threads can take their merge step. -/
def orders : List (List Nat) := [0, 1, 2, 3].permutations

/-- The five numbers that `main` prints after `Result: ` (lines 127, 152, 173, 209, 234),
for the random draws `draw` and the merge orders of the mutex and the spinlock threads. -/
def main (draw : Nat → Int) (order_1 order_4 : List Nat) : Option (List Nat) :=
  match threads_mutex (random_values draw) 0 first second third fourth order_1,
      async_sum (random_values draw) 0 first second third fourth,
      promise_sum (random_values draw) 0 first second third fourth,
      threads_spinlock (random_values draw) 0 first second third fourth order_4 with
  | some sum_1, some sum_2, some sum_3, some sum_4 =>
    some [loop_sum (random_values draw), sum_1, sum_2, sum_3, sum_4]
  | _, _, _, _ => none

/-! ## Specification-side notions -/

/-- The mathematical sum of `vec[beg], ..., vec[end - 1]`. -/
def rangeSum (vec : List Int) (beg end_ : Nat) : Int :=
  ((vec.drop beg).take (end_ - beg)).sum

/-- The sum modulo `2 ^ 64` of four partial sums, when all four workers produced one. -/
def add_parts : Option Nat → Option Nat → Option Nat → Option Nat → Option Nat
  | some p0, some p1, some p2, some p3 => some ((p0 + p1 + p2 + p3) % 2 ^ 64)
  | _, _, _, _ => none

/-- The mathematical sum of the range of thread number `t`. -/
def threadSum (vec : List Int) (threads : List (Nat × Nat)) (t : Nat) : Int :=
  match threads[t]? with
  | some (beg, end_) => rangeSum vec beg end_
  | none => 0

/-- The sequence `vec'` differs from `vec` only by a permutation of the elements at the
indices `beg, ..., end - 1`. -/
def permutedWithin (vec vec' : List Int) (beg end_ : Nat) : Prop :=
  vec'.take beg = vec.take beg ∧ vec'.drop end_ = vec.drop end_
    ∧ ((vec'.drop beg).take (end_ - beg)).Perm ((vec.drop beg).take (end_ - beg))

/-! ## The spinlock (main.cpp, lines 19-37) and its threads, step by step -/

/-- Lines 19-35: `class spinlock`; `flag` is the state of its `std::atomic_flag`. -/
structure spinlock where
  flag : Bool
  deriving DecidableEq, Repr

/-- Line 25: the constructor, `flag(ATOMIC_FLAG_INIT)`: the flag starts clear. -/
def spinlock.init : spinlock := { flag := false }

/-- Line 28: `flag.test_and_set(...)`, one atomic step: the flag is set and its previous
value is returned. -/
def spinlock.test_and_set (l : spinlock) : spinlock × Bool := ({ flag := true }, l.flag)

/-- Lines 31-34: `unlock()`, that is `flag.clear(...)`. -/
def spinlock.unlock (_l : spinlock) : spinlock := { flag := false }

/-- Where a thread stands in lines 88-90 of `my_sum_spinlock`. -/
inductive Pc where
  /-- In `sp_lock.lock()` (line 88), about to evaluate `flag.test_and_set` (line 28). -/
  | lock
  /-- The call of `lock()` has returned; about to read `sum` (line 89). -/
  | load
  /-- Has read the value `reg` of `sum`; about to write `reg + tmp_sum` to `sum` (line 89). -/
  | store (reg : Nat)
  /-- About to run `sp_lock.unlock()` (line 90). -/
  | unlock
  /-- Past line 90. -/
  | done
  deriving DecidableEq, Repr

/-- A thread is between a `lock()` that returned and the matching `unlock()`. -/
def Pc.critical : Pc → Bool
  | Pc.load => true
  | Pc.store _ => true
  | Pc.unlock => true
  | _ => false

/-- A thread running lines 88-90: its local `tmp_sum` and where it stands. -/
structure Thread where
  tmp_sum : Nat
  pc : Pc
  deriving DecidableEq, Repr

/-- The shared objects `sp_lock` (line 37) and `sum`, and the threads. -/
structure State where
  sp_lock : spinlock
  sum : Nat
  threads : List Thread
  deriving DecidableEq, Repr

/-- One step of thread number `t`; the steps of the threads interleave.
In `lock()` a step is one round of `while (flag.test_and_set(...));`: the thread leaves the
loop when the flag was clear and goes round again when it was set. `sum += tmp_sum` is a
read of `sum` and then a write. A thread that is done, or a number that is no thread,
changes nothing. -/
def step (s : State) (t : Nat) : State :=
  match s.threads[t]? with
  | none => s
  | some th =>
    match th.pc with
    | Pc.lock =>
      match s.sp_lock.test_and_set with
      | (l, true) => { s with sp_lock := l }
      | (l, false) =>
        { s with sp_lock := l, threads := s.threads.set t { th with pc := Pc.load } }
    | Pc.load => { s with threads := s.threads.set t { th with pc := Pc.store s.sum } }
    | Pc.store reg =>
      { s with sum := (reg + th.tmp_sum) % 2 ^ 64,
               threads := s.threads.set t { th with pc := Pc.unlock } }
    | Pc.unlock =>
      { s with sp_lock := s.sp_lock.unlock,
               threads := s.threads.set t { th with pc := Pc.done } }
    | Pc.done => s

/-- The start: the lock free, `sum = 0`, one thread for each `tmp_sum` of the list, each
about to call `sp_lock.lock()`. -/
def init (tmps : List Nat) : State :=
  { sp_lock := spinlock.init, sum := 0,
    threads := tmps.map (fun tmp => { tmp_sum := tmp, pc := Pc.lock }) }

/-- The state after the interleaving `sched`, the list of the numbers of the threads that
take a step, in order. -/
def run (s : State) (sched : List Nat) : State := sched.foldl step s

/-- Every thread is past `unlock()`. -/
def allDone (s : State) : Bool := s.threads.all (fun th => decide (th.pc = Pc.done))

/-- The `tmp_sum` of a thread counts in `sum` once the thread has written it. -/
def Pc.written : Pc → Bool
  | Pc.unlock => true
  | Pc.done => true
  | _ => false

/-- The sum of the `tmp_sum` of the threads that have written to `sum`. -/
def credited (l : List Thread) : Nat :=
  (l.map (fun th => if th.pc.written then th.tmp_sum else 0)).sum

/-- The number of steps a thread still takes once it holds or gets the lock. -/
def Pc.remaining : Pc → Nat
  | Pc.lock => 4
  | Pc.load => 3
  | Pc.store _ => 2
  | Pc.unlock => 1
  | Pc.done => 0

/-- The number of steps all threads still take, rounds of the spin loop apart. -/
def remainingSteps (l : List Thread) : Nat := (l.map (fun th => th.pc.remaining)).sum

/-- The invariant of the interleaved runs: `sum` holds what was written; the flag is clear
and no thread is critical, or it is set and exactly one thread is critical, whose read
value, if it has read, is still the value of `sum`. -/
def Inv (s : State) : Prop :=
  s.sum = credited s.threads % 2 ^ 64
  ∧ ((s.sp_lock.flag = false
        ∧ ∀ (u : Nat) (th : Thread), s.threads[u]? = some th → th.pc.critical = false)
    ∨ (s.sp_lock.flag = true
        ∧ ∃ (t : Nat) (th : Thread), s.threads[t]? = some th ∧ th.pc.critical = true
          ∧ (∀ reg, th.pc = Pc.store reg → reg = s.sum)
          ∧ ∀ (u : Nat) (th' : Thread), u ≠ t → s.threads[u]? = some th'
            → th'.pc.critical = false))

/-! ## The four loops are the same function -/

theorem my_sum_loop_eq (vec : List Int) :
    ∀ n i t, my_sum_loop vec n i t = my_sum_async_loop vec n i t := by
  intro n
  induction n with
  | zero => intro i t; rfl
  | succ n ih =>
    intro i t
    simp only [my_sum_loop, my_sum_async_loop]
    cases vec[i]? with
    | none => rfl
    | some x => exact ih _ _

theorem my_sum_promise_loop_eq (vec : List Int) :
    ∀ n i t, my_sum_promise_loop vec n i t = my_sum_async_loop vec n i t := by
  intro n
  induction n with
  | zero => intro i t; rfl
  | succ n ih =>
    intro i t
    simp only [my_sum_promise_loop, my_sum_async_loop]
    cases vec[i]? with
    | none => rfl
    | some x => exact ih _ _

theorem my_sum_spinlock_loop_eq (vec : List Int) :
    ∀ n i t, my_sum_spinlock_loop vec n i t = my_sum_async_loop vec n i t := by
  intro n
  induction n with
  | zero => intro i t; rfl
  | succ n ih =>
    intro i t
    simp only [my_sum_spinlock_loop, my_sum_async_loop]
    cases vec[i]? with
    | none => rfl
    | some x => exact ih _ _

/-! ## What the loop computes -/

theorem wrap_step (t : Nat) (x S : Int) :
    ((((t + toU64 x) % 2 ^ 64 : Nat) : Int) + S) % 2 ^ 64 = ((t : Int) + (x + S)) % 2 ^ 64 := by
  unfold toU64
  omega

theorem async_loop_exact (vec : List Int) :
    ∀ n i t, i + n ≤ vec.length → t < 2 ^ 64 →
      my_sum_async_loop vec n i t
        = some (((t : Int) + ((vec.drop i).take n).sum) % 2 ^ 64).toNat := by
  intro n
  induction n with
  | zero =>
    intro i t _ ht
    simp only [my_sum_async_loop, List.take_zero, List.sum_nil, add_zero]
    congr 1
    omega
  | succ n ih =>
    intro i t h _
    have hi : i < vec.length := by omega
    have hd : vec.drop i = vec[i] :: vec.drop (i + 1) := List.drop_eq_getElem_cons hi
    simp only [my_sum_async_loop, List.getElem?_eq_getElem hi]
    rw [ih (i + 1) _ (by omega) (Nat.mod_lt _ (by norm_num)), hd, List.take_succ_cons,
      List.sum_cons, wrap_step]

theorem async_loop_none (vec : List Int) :
    ∀ n i t, vec.length < i + n → 0 < n → my_sum_async_loop vec n i t = none := by
  intro n
  induction n with
  | zero => intro i t _ h; omega
  | succ n ih =>
    intro i t h _
    simp only [my_sum_async_loop]
    cases hx : vec[i]? with
    | none => rfl
    | some x =>
      have hi : i < vec.length := by
        by_contra hc
        rw [List.getElem?_eq_none (by omega)] at hx
        cases hx
      exact ih (i + 1) _ (by omega) (by omega)

theorem async_exact (vec : List Int) (beg end_ : Nat) (h1 : beg ≤ end_)
    (h2 : end_ ≤ vec.length) :
    my_sum_async vec beg end_ = some (rangeSum vec beg end_ % 2 ^ 64).toNat := by
  unfold my_sum_async rangeSum
  rw [async_loop_exact vec _ _ _ (by omega) (by norm_num)]
  simp

/-- A loop of `n + m` rounds is `n` rounds and then `m` rounds from where they stopped. -/
theorem async_loop_add (vec : List Int) :
    ∀ n m i t, my_sum_async_loop vec (n + m) i t
      = (my_sum_async_loop vec n i t).bind (fun t' => my_sum_async_loop vec m (i + n) t') := by
  intro n
  induction n with
  | zero =>
    intro m i t
    rw [Nat.zero_add]
    rfl
  | succ n ih =>
    intro m i t
    rw [Nat.succ_add]
    simp only [my_sum_async_loop]
    cases vec[i]? with
    | none => rfl
    | some x =>
      have hi : i + (n + 1) = i + 1 + n := by omega
      rw [hi]
      exact ih m (i + 1) _

/-- The value `t` that `tmp_sum` has at index `j` determines the rest of the loop. -/
theorem async_loop_continue (vec : List Int) (beg j end_ t : Nat) (h1 : beg ≤ j)
    (h2 : j ≤ end_) (h : my_sum_async_loop vec (j - beg) beg 0 = some t) :
    my_sum_async_loop vec (end_ - beg) beg 0 = my_sum_async_loop vec (end_ - j) j t := by
  have he : end_ - beg = (j - beg) + (end_ - j) := by omega
  have hj : beg + (j - beg) = j := by omega
  rw [he, async_loop_add, h, hj]
  rfl

theorem my_sum_eq (sum : Nat) (vec : List Int) (beg end_ : Nat) :
    my_sum sum vec beg end_
      = (my_sum_async vec beg end_).map (fun k => (sum + k) % 2 ^ 64) := by
  unfold my_sum my_sum_async
  rw [my_sum_loop_eq]
  cases my_sum_async_loop vec (end_ - beg) beg 0 <;> rfl

theorem my_sum_spinlock_eq (sum : Nat) (vec : List Int) (beg end_ : Nat) :
    my_sum_spinlock sum vec beg end_
      = (my_sum_async vec beg end_).map (fun k => (sum + k) % 2 ^ 64) := by
  unfold my_sum_spinlock my_sum_async
  rw [my_sum_spinlock_loop_eq]
  cases my_sum_async_loop vec (end_ - beg) beg 0 <;> rfl

theorem my_sum_promise_eq (vec : List Int) (beg end_ : Nat) :
    my_sum_promise { value := none } vec beg end_
      = (my_sum_async vec beg end_).map (fun k => { value := some k }) := by
  unfold my_sum_promise my_sum_async
  rw [my_sum_promise_loop_eq]
  cases my_sum_async_loop vec (end_ - beg) beg 0 <;> rfl

theorem merge_spinlock_eq (vec : List Int) (threads : List (Nat × Nat)) :
    ∀ order sum, merge_spinlock vec threads order sum = merge_mutex vec threads order sum := by
  intro order
  induction order with
  | nil => intro sum; rfl
  | cons k order ih =>
    intro sum
    simp only [merge_spinlock, merge_mutex]
    cases threads[k]? with
    | none => rfl
    | some r =>
      obtain ⟨b, e⟩ := r
      simp only [my_sum_eq, my_sum_spinlock_eq]
      cases my_sum_async vec b e with
      | none => rfl
      | some x => exact ih _

theorem merge_mutex_append (vec : List Int) (threads : List (Nat × Nat)) :
    ∀ a b sum, merge_mutex vec threads (a ++ b) sum
      = (merge_mutex vec threads a sum).bind (fun acc => merge_mutex vec threads b acc) := by
  intro a
  induction a with
  | nil => intro b sum; rfl
  | cons k a ih =>
    intro b sum
    simp only [List.cons_append, merge_mutex]
    cases threads[k]? with
    | none => rfl
    | some r =>
      obtain ⟨beg, end_⟩ := r
      simp only []
      cases my_sum sum vec beg end_ with
      | none => rfl
      | some x => exact ih b x

/-- The merge steps add up the partial sums `part k` of the threads in `order`. -/
theorem merge_mutex_spec (vec : List Int) (threads : List (Nat × Nat)) (part : Nat → Nat) :
    ∀ order sum, sum < 2 ^ 64 →
      (∀ k ∈ order, ∃ b e, threads[k]? = some (b, e) ∧ my_sum_async vec b e = some (part k)) →
      merge_mutex vec threads order sum = some ((sum + (order.map part).sum) % 2 ^ 64) := by
  intro order
  induction order with
  | nil =>
    intro sum hs _
    simp only [merge_mutex, List.map_nil, List.sum_nil, add_zero]
    congr 1
    omega
  | cons k order ih =>
    intro sum _ h
    obtain ⟨b, e, hT, hp⟩ := h k (List.mem_cons_self _ _)
    simp only [merge_mutex, hT, my_sum_eq, hp, Option.map_some', List.map_cons, List.sum_cons]
    rw [ih _ (Nat.mod_lt _ (by norm_num)) (fun j hj => h j (List.mem_cons_of_mem _ hj))]
    congr 1
    omega

theorem rangeSum_split (vec : List Int) (beg mid end_ : Nat) (h1 : beg ≤ mid)
    (h2 : mid ≤ end_) :
    rangeSum vec beg end_ = rangeSum vec beg mid + rangeSum vec mid end_ := by
  unfold rangeSum
  have he : end_ - beg = (mid - beg) + (end_ - mid) := by omega
  have hm : beg + (mid - beg) = mid := by omega
  rw [he, List.take_add, List.sum_append, List.drop_drop, hm]

theorem rangeSum_full (vec : List Int) : rangeSum vec 0 vec.length = vec.sum := by
  simp [rangeSum]

theorem foldl_exact (vec : List Int) :
    ∀ t : Nat, t < 2 ^ 64 →
      vec.foldl (fun sum n => (sum + toU64 n) % 2 ^ 64) t
        = (((t : Int) + vec.sum) % 2 ^ 64).toNat := by
  induction vec with
  | nil => intro t ht; simp only [List.foldl_nil, List.sum_nil, add_zero]; omega
  | cons x xs ih =>
    intro t _
    rw [List.foldl_cons, ih _ (Nat.mod_lt _ (by norm_num)), List.sum_cons, wrap_step]

theorem loop_sum_exact (vec : List Int) : loop_sum vec = (vec.sum % 2 ^ 64).toNat := by
  unfold loop_sum
  rw [foldl_exact vec 0 (by norm_num)]
  simp

theorem mem_orders_lt (order : List Nat) (h : order ∈ orders) : ∀ k ∈ order, k < 4 := by
  intro k hk
  have hp : order.Perm [0, 1, 2, 3] := List.mem_permutations.1 h
  have hm := hp.mem_iff.1 hk
  simp at hm
  omega

theorem orders_sum (part : Nat → Nat) (order : List Nat) (h : order ∈ orders) :
    (order.map part).sum = part 0 + part 1 + part 2 + part 3 := by
  have hp : order.Perm [0, 1, 2, 3] := List.mem_permutations.1 h
  rw [(hp.map part).sum_eq]
  simp [add_assoc]

theorem four_merge_list (vec : List Int) (r0 r1 r2 r3 : Nat × Nat) (p0 p1 p2 p3 : Nat)
    (h0 : my_sum_async vec r0.1 r0.2 = some p0) (h1 : my_sum_async vec r1.1 r1.2 = some p1)
    (h2 : my_sum_async vec r2.1 r2.2 = some p2) (h3 : my_sum_async vec r3.1 r3.2 = some p3)
    (order : List Nat) (hk : ∀ k ∈ order, k < 4) :
    merge_mutex vec [r0, r1, r2, r3] order 0
      = some ((order.map (fun k => [p0, p1, p2, p3].getD k 0)).sum % 2 ^ 64) := by
  have key := merge_mutex_spec vec [r0, r1, r2, r3] (fun k => [p0, p1, p2, p3].getD k 0)
    order 0 (by norm_num) (by
      intro k hko
      have hlt := hk k hko
      have hcases : k = 0 ∨ k = 1 ∨ k = 2 ∨ k = 3 := by omega
      rcases hcases with rfl | rfl | rfl | rfl
      · exact ⟨r0.1, r0.2, rfl, h0⟩
      · exact ⟨r1.1, r1.2, rfl, h1⟩
      · exact ⟨r2.1, r2.2, rfl, h2⟩
      · exact ⟨r3.1, r3.2, rfl, h3⟩)
  rw [key, Nat.zero_add]

theorem four_merge (vec : List Int) (r0 r1 r2 r3 : Nat × Nat) (p0 p1 p2 p3 : Nat)
    (h0 : my_sum_async vec r0.1 r0.2 = some p0) (h1 : my_sum_async vec r1.1 r1.2 = some p1)
    (h2 : my_sum_async vec r2.1 r2.2 = some p2) (h3 : my_sum_async vec r3.1 r3.2 = some p3)
    (order : List Nat) (h : order ∈ orders) :
    merge_mutex vec [r0, r1, r2, r3] order 0 = some ((p0 + p1 + p2 + p3) % 2 ^ 64) := by
  rw [four_merge_list vec r0 r1 r2 r3 p0 p1 p2 p3 h0 h1 h2 h3 order (mem_orders_lt order h),
    orders_sum _ order h]
  rfl

/-- With ranges inside the vector, the four partial sums add up to the whole sum. -/
theorem four_parts_total (vec : List Int) (a b c : Nat) (hab : a ≤ b) (hbc : b ≤ c)
    (hc : c ≤ vec.length) :
    (((rangeSum vec 0 a % 2 ^ 64).toNat + (rangeSum vec a b % 2 ^ 64).toNat
        + (rangeSum vec b c % 2 ^ 64).toNat + (rangeSum vec c vec.length % 2 ^ 64).toNat)
      % 2 ^ 64 : Nat) = (vec.sum % 2 ^ 64).toNat := by
  have e1 := rangeSum_split vec 0 a vec.length (Nat.zero_le _) (by omega)
  have e2 := rangeSum_split vec a b vec.length hab (by omega)
  have e3 := rangeSum_split vec b c vec.length hbc hc
  rw [rangeSum_full] at e1
  omega

theorem async_sum_exact (vec : List Int) (a b c : Nat) (hab : a ≤ b) (hbc : b ≤ c)
    (hc : c ≤ vec.length) : async_sum vec 0 a b c vec.length = some (loop_sum vec) := by
  unfold async_sum
  rw [async_exact vec 0 a (Nat.zero_le _) (by omega), async_exact vec a b hab (by omega),
    async_exact vec b c hbc hc, async_exact vec c vec.length hc le_rfl, loop_sum_exact,
    ← four_parts_total vec a b c hab hbc hc]
  simp only [Option.some.injEq]
  omega

theorem promise_sum_eq (vec : List Int) (b0 b1 b2 b3 b4 : Nat) :
    promise_sum vec b0 b1 b2 b3 b4 = async_sum vec b0 b1 b2 b3 b4 := by
  unfold promise_sum async_sum
  simp only [my_sum_promise_eq]
  cases my_sum_async vec b0 b1 <;> cases my_sum_async vec b1 b2 <;>
    cases my_sum_async vec b2 b3 <;> cases my_sum_async vec b3 b4 <;> rfl

theorem threads_mutex_exact (vec : List Int) (a b c : Nat) (hab : a ≤ b) (hbc : b ≤ c)
    (hc : c ≤ vec.length) (order : List Nat) (h : order ∈ orders) :
    threads_mutex vec 0 a b c vec.length order = some (loop_sum vec) := by
  unfold threads_mutex ranges
  rw [four_merge vec (0, a) (a, b) (b, c) (c, vec.length) _ _ _ _
    (async_exact vec 0 a (Nat.zero_le _) (by omega)) (async_exact vec a b hab (by omega))
    (async_exact vec b c hbc hc) (async_exact vec c vec.length hc le_rfl) order h,
    loop_sum_exact, four_parts_total vec a b c hab hbc hc]

theorem merge_mutex_none (vec : List Int) (threads : List (Nat × Nat)) (k : Nat)
    (hnone : ∀ b e, threads[k]? = some (b, e) → my_sum_async vec b e = none) :
    ∀ order sum, k ∈ order → merge_mutex vec threads order sum = none := by
  intro order
  induction order with
  | nil => intro sum hk; cases hk
  | cons j order ih =>
    intro sum hk
    simp only [merge_mutex]
    cases hT : threads[j]? with
    | none => rfl
    | some r =>
      obtain ⟨b, e⟩ := r
      simp only [my_sum_eq]
      cases hp : my_sum_async vec b e with
      | none => rfl
      | some x =>
        simp only [Option.map_some']
        rcases List.mem_cons.1 hk with rfl | hin
        · rw [hnone b e hT] at hp
          cases hp
        · exact ih _ hin

theorem mem_of_mem_orders (order : List Nat) (h : order ∈ orders) (k : Nat) (hk : k < 4) :
    k ∈ order := by
  have hp : order.Perm [0, 1, 2, 3] := List.mem_permutations.1 h
  rw [hp.mem_iff]
  simp
  omega

theorem four_merge_add_parts (vec : List Int) (r0 r1 r2 r3 : Nat × Nat) (order : List Nat)
    (h : order ∈ orders) :
    merge_mutex vec [r0, r1, r2, r3] order 0
      = add_parts (my_sum_async vec r0.1 r0.2) (my_sum_async vec r1.1 r1.2)
          (my_sum_async vec r2.1 r2.2) (my_sum_async vec r3.1 r3.2) := by
  cases h0 : my_sum_async vec r0.1 r0.2 with
  | none =>
    rw [merge_mutex_none vec _ 0 (by intro b e hT; cases hT; exact h0) order 0
      (mem_of_mem_orders order h 0 (by norm_num))]
    rfl
  | some p0 =>
    cases h1 : my_sum_async vec r1.1 r1.2 with
    | none =>
      rw [merge_mutex_none vec _ 1 (by intro b e hT; cases hT; exact h1) order 0
        (mem_of_mem_orders order h 1 (by norm_num))]
      rfl
    | some p1 =>
      cases h2 : my_sum_async vec r2.1 r2.2 with
      | none =>
        rw [merge_mutex_none vec _ 2 (by intro b e hT; cases hT; exact h2) order 0
          (mem_of_mem_orders order h 2 (by norm_num))]
        rfl
      | some p2 =>
        cases h3 : my_sum_async vec r3.1 r3.2 with
        | none =>
          rw [merge_mutex_none vec _ 3 (by intro b e hT; cases hT; exact h3) order 0
            (mem_of_mem_orders order h 3 (by norm_num))]
          rfl
        | some p3 =>
          rw [four_merge vec r0 r1 r2 r3 p0 p1 p2 p3 h0 h1 h2 h3 order h]
          rfl

theorem orders_length : orders.length = 24 := by
  simp [orders, List.length_permutations]
  rfl

theorem sum_map_toU64 (l : List Int) :
    (l.map toU64).sum % 2 ^ 64 = (l.sum % 2 ^ 64).toNat := by
  induction l with
  | nil => simp
  | cons x xs ih =>
    have hx : toU64 x = (x % 2 ^ 64).toNat := rfl
    simp only [List.map_cons, List.sum_cons, hx]
    omega

theorem rangeSum_perm (vec vec' : List Int) (beg end_ : Nat)
    (hp : permutedWithin vec vec' beg end_) : rangeSum vec' beg end_ = rangeSum vec beg end_ :=
  hp.2.2.sum_eq

theorem permutedWithin_length (vec vec' : List Int) (beg end_ : Nat) (h1 : beg < end_)
    (h2 : end_ ≤ vec.length) (hp : permutedWithin vec vec' beg end_) :
    end_ ≤ vec'.length := by
  have hl := hp.2.2.length_eq
  simp only [List.length_take, List.length_drop] at hl
  omega

theorem async_empty (vec : List Int) (beg : Nat) : my_sum_async vec beg beg = some 0 := by
  unfold my_sum_async
  rw [Nat.sub_self]
  rfl

/-! ## The vector that `main` fills -/

theorem fill_length (draw : Nat → Int) :
    ∀ n i acc, (fill draw n i acc).length = acc.length + n := by
  intro n
  induction n with
  | zero => intro i acc; rfl
  | succ n ih =>
    intro i acc
    simp only [fill]
    rw [ih, List.length_append, List.length_singleton]
    omega

theorem random_values_length (draw : Nat → Int) : (random_values draw).length = size := by
  unfold random_values
  rw [fill_length, List.length_nil, Nat.zero_add]

theorem fill_mem (draw : Nat → Int) :
    ∀ n i acc x, x ∈ fill draw n i acc → x ∈ acc ∨ ∃ k, x = draw k := by
  intro n
  induction n with
  | zero => intro i acc x hx; exact Or.inl hx
  | succ n ih =>
    intro i acc x hx
    simp only [fill] at hx
    rcases ih _ _ x hx with h | h
    · rcases List.mem_append.1 h with h | h
      · exact Or.inl h
      · exact Or.inr ⟨i, List.mem_singleton.1 h⟩
    · exact Or.inr h

theorem random_values_mem (draw : Nat → Int) (x : Int) (hx : x ∈ random_values draw) :
    ∃ k, x = draw k := by
  rcases fill_mem draw size 0 [] x hx with h | h
  · cases h
  · exact h

theorem main_ranges_in_size (r : Nat × Nat) (hr : r ∈ ranges 0 first second third fourth) :
    r.1 ≤ r.2 ∧ r.2 ≤ size := by
  simp only [ranges, first, second, third, fourth, size, List.mem_cons, List.mem_singleton,
    List.not_mem_nil, or_false] at hr ⊢
  rcases hr with rfl | rfl | rfl | rfl <;> simp

theorem fourth_eq_length (draw : Nat → Int) : fourth = (random_values draw).length := by
  rw [random_values_length]
  rfl

theorem main_eq (draw : Nat → Int) (order_1 order_4 : List Nat) (h1 : order_1 ∈ orders)
    (h4 : order_4 ∈ orders) :
    main draw order_1 order_4
      = some [loop_sum (random_values draw), loop_sum (random_values draw),
          loop_sum (random_values draw), loop_sum (random_values draw),
          loop_sum (random_values draw)] := by
  have hab : first ≤ second := by decide
  have hbc : second ≤ third := by decide
  have hc : third ≤ (random_values draw).length := by
    rw [random_values_length]
    decide
  have hm := threads_mutex_exact (random_values draw) first second third hab hbc hc order_1 h1
  have ha := async_sum_exact (random_values draw) first second third hab hbc hc
  have hs := threads_mutex_exact (random_values draw) first second third hab hbc hc order_4 h4
  rw [← fourth_eq_length draw] at hm ha hs
  unfold main
  rw [threads_spinlock, merge_spinlock_eq, promise_sum_eq, ← threads_mutex, hm, ha, hs]

/-! ## Sums of elements between 1 and 10 -/

theorem sum_bounds (l : List Int) (hl : ∀ x ∈ l, 1 ≤ x ∧ x ≤ 10) :
    (l.length : Int) ≤ l.sum ∧ l.sum ≤ 10 * (l.length : Int) := by
  induction l with
  | nil => simp
  | cons x xs ih =>
    have hx := hl x (List.mem_cons_self _ _)
    have hxs := ih (fun y hy => hl y (List.mem_cons_of_mem _ hy))
    simp only [List.length_cons, List.sum_cons, Nat.cast_add, Nat.cast_one]
    omega

theorem rangeSum_bounds (vec : List Int) (hv : ∀ x ∈ vec, 1 ≤ x ∧ x ≤ 10) (beg end_ : Nat)
    (h1 : beg ≤ end_) (h2 : end_ ≤ vec.length) :
    ((end_ - beg : Nat) : Int) ≤ rangeSum vec beg end_
      ∧ rangeSum vec beg end_ ≤ 10 * ((end_ - beg : Nat) : Int) := by
  have hb := sum_bounds ((vec.drop beg).take (end_ - beg))
    (fun x hx => hv x (List.mem_of_mem_drop (List.mem_of_mem_take hx)))
  have hl : ((vec.drop beg).take (end_ - beg)).length = end_ - beg := by
    rw [List.length_take, List.length_drop]
    omega
  rw [hl] at hb
  exact hb

theorem async_small (vec : List Int) (hv : ∀ x ∈ vec, 1 ≤ x ∧ x ≤ 10)
    (hlen : vec.length = size) (beg end_ : Nat) (h1 : beg ≤ end_) (h2 : end_ ≤ vec.length) :
    ∃ p : Nat, my_sum_async vec beg end_ = some p ∧ (p : Int) = rangeSum vec beg end_
      ∧ end_ - beg ≤ p ∧ p ≤ 10 * (end_ - beg) := by
  have hb := rangeSum_bounds vec hv beg end_ h1 h2
  have hs : size = 100000000 := rfl
  refine ⟨(rangeSum vec beg end_ % 2 ^ 64).toNat, async_exact vec beg end_ h1 h2, ?_, ?_, ?_⟩
    <;> omega

theorem random_values_range (draw : Nat → Int) (hdraw : ∀ k, 1 ≤ draw k ∧ draw k ≤ 10) :
    ∀ x ∈ random_values draw, 1 ≤ x ∧ x ≤ 10 := by
  intro x hx
  obtain ⟨k, rfl⟩ := random_values_mem draw x hx
  exact hdraw k

theorem main_ranges_size (r : Nat × Nat) (hr : r ∈ ranges 0 first second third fourth) :
    r.2 - r.1 = 25000000 := by
  simp only [ranges, first, second, third, fourth, List.mem_cons, List.mem_singleton,
    List.not_mem_nil, or_false] at hr
  rcases hr with rfl | rfl | rfl | rfl <;> rfl

theorem cast_sum_map (f : Nat → Nat) (g : Nat → Int) (l : List Nat)
    (h : ∀ t ∈ l, (f t : Int) = g t) : (((l.map f).sum : Nat) : Int) = (l.map g).sum := by
  induction l with
  | nil => simp
  | cons t ts ih =>
    simp only [List.map_cons, List.sum_cons, Nat.cast_add]
    rw [h t (List.mem_cons_self _ _), ih (fun u hu => h u (List.mem_cons_of_mem _ hu))]

theorem take_sum_le (f : Nat → Nat) (l : List Nat) (k : Nat) :
    ((l.take k).map f).sum ≤ (l.map f).sum := by
  conv_rhs => rw [← List.take_append_drop k l, List.map_append, List.sum_append]
  exact Nat.le_add_right _ _

/-- The accumulator after the first `k` merge steps of `main`, exactly. -/
theorem main_prefix_merge (draw : Nat → Int) (hdraw : ∀ k, 1 ≤ draw k ∧ draw k ≤ 10)
    (order : List Nat) (h : order ∈ orders) (k : Nat) :
    ∃ acc : Nat,
      merge_mutex (random_values draw) (ranges 0 first second third fourth) (order.take k) 0
        = some acc
      ∧ (acc : Int) = ((order.take k).map
          (threadSum (random_values draw) (ranges 0 first second third fourth))).sum
      ∧ merge_mutex (random_values draw) (ranges 0 first second third fourth) order 0
        = merge_mutex (random_values draw) (ranges 0 first second third fourth)
            (order.drop k) acc := by
  have hv := random_values_range draw hdraw
  have hlen := random_values_length draw
  have hs : size = 100000000 := rfl
  obtain ⟨p0, e0, c0, -, u0⟩ := async_small (random_values draw) hv hlen 0 first
    (by decide) (by rw [hlen]; decide)
  obtain ⟨p1, e1, c1, -, u1⟩ := async_small (random_values draw) hv hlen first second
    (by decide) (by rw [hlen]; decide)
  obtain ⟨p2, e2, c2, -, u2⟩ := async_small (random_values draw) hv hlen second third
    (by decide) (by rw [hlen]; decide)
  obtain ⟨p3, e3, c3, -, u3⟩ := async_small (random_values draw) hv hlen third fourth
    (by decide) (by rw [hlen]; decide)
  have hlt : ∀ t ∈ order.take k, t < 4 := fun t ht =>
    mem_orders_lt order h t (List.mem_of_mem_take ht)
  have hm := four_merge_list (random_values draw) (0, first) (first, second) (second, third)
    (third, fourth) p0 p1 p2 p3 e0 e1 e2 e3 (order.take k) hlt
  have hle := take_sum_le (fun t => [p0, p1, p2, p3].getD t 0) order k
  rw [orders_sum _ order h] at hle
  simp only [List.getD_cons_zero, List.getD_cons_succ] at hle
  simp only [first, second, third, fourth] at u0 u1 u2 u3
  refine ⟨_, hm, ?_, ?_⟩
  swap
  · conv_lhs => rw [← List.take_append_drop k order, merge_mutex_append]
    unfold ranges
    rw [hm]
    rfl
  rw [Nat.mod_eq_of_lt (by omega)]
  apply cast_sum_map
  intro t ht
  have h4 := hlt t ht
  have hcases : t = 0 ∨ t = 1 ∨ t = 2 ∨ t = 3 := by omega
  rcases hcases with rfl | rfl | rfl | rfl
  · exact c0
  · exact c1
  · exact c2
  · exact c3

/-! ## The interleaved runs of the spinlock threads -/

theorem sum_map_set {α : Type} (f : α → Nat) :
    ∀ (l : List α) (t : Nat) (a x : α), l[t]? = some a →
      ((l.set t x).map f).sum + f a = (l.map f).sum + f x := by
  intro l
  induction l with
  | nil => intro t a x h; simp at h
  | cons b l ih =>
    intro t a x h
    cases t with
    | zero =>
      simp only [List.getElem?_cons_zero, Option.some.injEq] at h
      subst h
      simp only [List.set_cons_zero, List.map_cons, List.sum_cons]
      omega
    | succ t =>
      simp only [List.getElem?_cons_succ] at h
      have := ih t a x h
      simp only [List.set_cons_succ, List.map_cons, List.sum_cons]
      omega

theorem map_set_same {α β : Type} (f : α → β) :
    ∀ (l : List α) (t : Nat) (a x : α), l[t]? = some a → f x = f a →
      (l.set t x).map f = l.map f := by
  intro l
  induction l with
  | nil => intro t a x h; simp at h
  | cons b l ih =>
    intro t a x h hf
    cases t with
    | zero =>
      simp only [List.getElem?_cons_zero, Option.some.injEq] at h
      subst h
      simp only [List.set_cons_zero, List.map_cons, hf]
    | succ t =>
      simp only [List.getElem?_cons_succ] at h
      simp only [List.set_cons_succ, List.map_cons, ih t a x h hf]

theorem exists_pos_of_sum_pos {α : Type} (f : α → Nat) :
    ∀ l : List α, 0 < (l.map f).sum → ∃ (u : Nat) (a : α), l[u]? = some a ∧ 0 < f a := by
  intro l
  induction l with
  | nil => intro h; simp at h
  | cons b l ih =>
    intro h
    simp only [List.map_cons, List.sum_cons] at h
    by_cases hb : 0 < f b
    · exact ⟨0, b, by simp, hb⟩
    · obtain ⟨u, a, hu, ha⟩ := ih (by omega)
      exact ⟨u + 1, a, by simpa using hu, ha⟩

theorem step_none (s : State) (t : Nat) (h : s.threads[t]? = none) : step s t = s := by
  simp only [step, h]

theorem step_lock_held (s : State) (t : Nat) (th : Thread) (h : s.threads[t]? = some th)
    (hpc : th.pc = Pc.lock) (hf : s.sp_lock.flag = true) :
    step s t = { s with sp_lock := { flag := true } } := by
  simp only [step, h, hpc, spinlock.test_and_set, hf]

theorem step_lock_free (s : State) (t : Nat) (th : Thread) (h : s.threads[t]? = some th)
    (hpc : th.pc = Pc.lock) (hf : s.sp_lock.flag = false) :
    step s t = { s with sp_lock := { flag := true },
                        threads := s.threads.set t { th with pc := Pc.load } } := by
  simp only [step, h, hpc, spinlock.test_and_set, hf]

theorem step_load (s : State) (t : Nat) (th : Thread) (h : s.threads[t]? = some th)
    (hpc : th.pc = Pc.load) :
    step s t = { s with threads := s.threads.set t { th with pc := Pc.store s.sum } } := by
  simp only [step, h, hpc]

theorem step_store (s : State) (t : Nat) (th : Thread) (reg : Nat)
    (h : s.threads[t]? = some th) (hpc : th.pc = Pc.store reg) :
    step s t = { s with sum := (reg + th.tmp_sum) % 2 ^ 64,
                        threads := s.threads.set t { th with pc := Pc.unlock } } := by
  simp only [step, h, hpc]

theorem step_unlock (s : State) (t : Nat) (th : Thread) (h : s.threads[t]? = some th)
    (hpc : th.pc = Pc.unlock) :
    step s t = { s with sp_lock := { flag := false },
                        threads := s.threads.set t { th with pc := Pc.done } } := by
  simp only [step, h, hpc, spinlock.unlock]

theorem step_done (s : State) (t : Nat) (th : Thread) (h : s.threads[t]? = some th)
    (hpc : th.pc = Pc.done) : step s t = s := by
  simp only [step, h, hpc]

theorem get_set_self {α : Type} (l : List α) (t : Nat) (a x : α) (h : l[t]? = some a) :
    (l.set t x)[t]? = some x := by
  obtain ⟨hlt, -⟩ := List.getElem?_eq_some.1 h
  exact List.getElem?_set_self hlt

theorem get_set_other {α : Type} (l : List α) (t u : Nat) (x : α) (h : u ≠ t) :
    (l.set t x)[u]? = l[u]? :=
  List.getElem?_set_ne (Ne.symm h)

theorem credited_set (l : List Thread) (t : Nat) (a x : Thread) (h : l[t]? = some a) :
    credited (l.set t x) + (if a.pc.written then a.tmp_sum else 0)
      = credited l + (if x.pc.written then x.tmp_sum else 0) :=
  sum_map_set _ l t a x h

theorem inv_critical (s : State) (hI : Inv s) (t : Nat) (th : Thread)
    (h : s.threads[t]? = some th) (hc : th.pc.critical = true) :
    s.sp_lock.flag = true ∧ (∀ reg, th.pc = Pc.store reg → reg = s.sum)
      ∧ ∀ (u : Nat) (th' : Thread), u ≠ t → s.threads[u]? = some th'
          → th'.pc.critical = false := by
  rcases hI.2 with ⟨-, hall⟩ | ⟨hf, t0, th0, h0, -, hreg, hoth⟩
  · rw [hall t th h] at hc
    cases hc
  · by_cases ht : t = t0
    · subst ht
      rw [h] at h0
      cases h0
      exact ⟨hf, hreg, hoth⟩
    · rw [hoth t th ht h] at hc
      cases hc

/-- Every step keeps the invariant. -/
theorem inv_step (s : State) (t : Nat) (hI : Inv s) : Inv (step s t) := by
  cases h : s.threads[t]? with
  | none => rw [step_none s t h]; exact hI
  | some th =>
    cases hpc : th.pc with
    | lock =>
      cases hf : s.sp_lock.flag with
      | true =>
        rw [step_lock_held s t th h hpc hf]
        refine ⟨hI.1, ?_⟩
        rcases hI.2 with ⟨hf', -⟩ | hr
        · rw [hf] at hf'
          cases hf'
        · exact Or.inr ⟨rfl, hr.2⟩
      | false =>
        rw [step_lock_free s t th h hpc hf]
        have hall : ∀ (u : Nat) (th' : Thread), s.threads[u]? = some th'
            → th'.pc.critical = false := by
          rcases hI.2 with ⟨-, hall⟩ | ⟨hf', -⟩
          · exact hall
          · rw [hf] at hf'
            cases hf'
        have hcr := credited_set s.threads t th { th with pc := Pc.load } h
        simp only [hpc, Pc.written] at hcr
        refine ⟨?_, Or.inr ⟨rfl, t, { th with pc := Pc.load }, ?_, rfl, ?_, ?_⟩⟩
        · show s.sum = credited (s.threads.set t { th with pc := Pc.load }) % 2 ^ 64
          have := hI.1
          simp only [Bool.false_eq_true, if_false, Nat.add_zero] at hcr
          rw [hcr]
          exact this
        · exact get_set_self s.threads t th _ h
        · intro reg hreg
          cases hreg
        · intro u th' hu hth'
          have hget : (s.threads.set t { th with pc := Pc.load })[u]? = some th' := hth'
          rw [get_set_other s.threads t u _ hu] at hget
          exact hall u th' hget
    | load =>
      have hc : th.pc.critical = true := by rw [hpc]; rfl
      obtain ⟨hf, -, hoth⟩ := inv_critical s hI t th h hc
      rw [step_load s t th h hpc]
      have hcr := credited_set s.threads t th { th with pc := Pc.store s.sum } h
      simp only [hpc, Pc.written, Bool.false_eq_true, if_false, Nat.add_zero] at hcr
      refine ⟨?_, Or.inr ⟨hf, t, { th with pc := Pc.store s.sum }, ?_, rfl, ?_, ?_⟩⟩
      · show s.sum = credited (s.threads.set t { th with pc := Pc.store s.sum }) % 2 ^ 64
        rw [hcr]
        exact hI.1
      · exact get_set_self s.threads t th _ h
      · intro reg hreg
        cases hreg
        rfl
      · intro u th' hu hth'
        have hget : (s.threads.set t { th with pc := Pc.store s.sum })[u]? = some th' := hth'
        rw [get_set_other s.threads t u _ hu] at hget
        exact hoth u th' hu hget
    | store reg =>
      have hc : th.pc.critical = true := by rw [hpc]; rfl
      obtain ⟨hf, hreg, hoth⟩ := inv_critical s hI t th h hc
      have hr : reg = s.sum := hreg reg hpc
      rw [step_store s t th reg h hpc]
      have hcr := credited_set s.threads t th { th with pc := Pc.unlock } h
      simp only [hpc, Pc.written, Bool.false_eq_true, if_false, if_true, Nat.add_zero] at hcr
      refine ⟨?_, Or.inr ⟨hf, t, { th with pc := Pc.unlock }, ?_, rfl, ?_, ?_⟩⟩
      · show (reg + th.tmp_sum) % 2 ^ 64
          = credited (s.threads.set t { th with pc := Pc.unlock }) % 2 ^ 64
        have h1 := hI.1
        rw [hcr, hr]
        omega
      · exact get_set_self s.threads t th _ h
      · intro reg' hreg'
        cases hreg'
      · intro u th' hu hth'
        have hget : (s.threads.set t { th with pc := Pc.unlock })[u]? = some th' := hth'
        rw [get_set_other s.threads t u _ hu] at hget
        exact hoth u th' hu hget
    | unlock =>
      have hc : th.pc.critical = true := by rw [hpc]; rfl
      obtain ⟨-, -, hoth⟩ := inv_critical s hI t th h hc
      rw [step_unlock s t th h hpc]
      have hcr := credited_set s.threads t th { th with pc := Pc.done } h
      simp only [hpc, Pc.written, if_true, Nat.add_right_cancel_iff] at hcr
      refine ⟨?_, Or.inl ⟨rfl, ?_⟩⟩
      · show s.sum = credited (s.threads.set t { th with pc := Pc.done }) % 2 ^ 64
        rw [hcr]
        exact hI.1
      · intro u th' hth'
        have hget : (s.threads.set t { th with pc := Pc.done })[u]? = some th' := hth'
        by_cases hu : u = t
        · subst hu
          rw [get_set_self s.threads u th _ h] at hget
          cases hget
          rfl
        · rw [get_set_other s.threads t u _ hu] at hget
          exact hoth u th' hu hget
    | done => rw [step_done s t th h hpc]; exact hI

theorem credited_init (tmps : List Nat) :
    credited (tmps.map (fun tmp => ({ tmp_sum := tmp, pc := Pc.lock } : Thread))) = 0 := by
  induction tmps with
  | nil => rfl
  | cons a l ih =>
    unfold credited at ih ⊢
    simp only [List.map_cons, List.sum_cons, ih]
    rfl

theorem inv_init (tmps : List Nat) : Inv (init tmps) := by
  refine ⟨?_, Or.inl ⟨rfl, ?_⟩⟩
  · show 0 = credited (tmps.map (fun tmp => ({ tmp_sum := tmp, pc := Pc.lock } : Thread)))
        % 2 ^ 64
    rw [credited_init]
    rfl
  · intro u th hu
    have hmem : th ∈ tmps.map (fun tmp => ({ tmp_sum := tmp, pc := Pc.lock } : Thread)) :=
      List.mem_iff_getElem?.2 ⟨u, hu⟩
    obtain ⟨tmp, -, rfl⟩ := List.mem_map.1 hmem
    rfl

theorem run_cons (s : State) (t : Nat) (sched : List Nat) :
    run s (t :: sched) = run (step s t) sched := rfl

theorem run_append (s : State) (a b : List Nat) : run s (a ++ b) = run (run s a) b :=
  List.foldl_append _ _ _ _

theorem inv_run (sched : List Nat) : ∀ s, Inv s → Inv (run s sched) := by
  induction sched with
  | nil => intro s hI; exact hI
  | cons t sched ih =>
    intro s hI
    rw [run_cons]
    exact ih _ (inv_step s t hI)

/-- A step changes no `tmp_sum`. -/
theorem step_tmps (s : State) (t : Nat) :
    (step s t).threads.map Thread.tmp_sum = s.threads.map Thread.tmp_sum := by
  cases h : s.threads[t]? with
  | none => rw [step_none s t h]
  | some th =>
    cases hpc : th.pc with
    | lock =>
      cases hf : s.sp_lock.flag with
      | true => rw [step_lock_held s t th h hpc hf]
      | false =>
        rw [step_lock_free s t th h hpc hf]
        exact map_set_same _ s.threads t th _ h rfl
    | load =>
      rw [step_load s t th h hpc]
      exact map_set_same _ s.threads t th _ h rfl
    | store reg =>
      rw [step_store s t th reg h hpc]
      exact map_set_same _ s.threads t th _ h rfl
    | unlock =>
      rw [step_unlock s t th h hpc]
      exact map_set_same _ s.threads t th _ h rfl
    | done => rw [step_done s t th h hpc]

theorem run_tmps (sched : List Nat) :
    ∀ s, (run s sched).threads.map Thread.tmp_sum = s.threads.map Thread.tmp_sum := by
  induction sched with
  | nil => intro s; rfl
  | cons t sched ih =>
    intro s
    rw [run_cons, ih, step_tmps]

theorem init_tmps (tmps : List Nat) : (init tmps).threads.map Thread.tmp_sum = tmps := by
  show (tmps.map (fun tmp => ({ tmp_sum := tmp, pc := Pc.lock } : Thread))).map Thread.tmp_sum
    = tmps
  rw [List.map_map]
  exact List.map_id _

theorem credited_of_allDone (l : List Thread)
    (h : l.all (fun th => decide (th.pc = Pc.done)) = true) :
    credited l = (l.map Thread.tmp_sum).sum := by
  induction l with
  | nil => rfl
  | cons a l ih =>
    simp only [List.all_cons, Bool.and_eq_true, decide_eq_true_eq] at h
    have hw : a.pc.written = true := by rw [h.1]; rfl
    have := ih h.2
    unfold credited at this ⊢
    simp only [List.map_cons, List.sum_cons, hw, if_true, this]

/-- Once all threads are done, `sum` is the sum modulo `2 ^ 64` of their `tmp_sum`. -/
theorem final_sum (tmps : List Nat) (sched : List Nat)
    (h : allDone (run (init tmps) sched) = true) :
    (run (init tmps) sched).sum = tmps.sum % 2 ^ 64 := by
  have hI := inv_run sched (init tmps) (inv_init tmps)
  rw [hI.1, credited_of_allDone _ h, run_tmps, init_tmps]

theorem allDone_of_remaining_zero (l : List Thread) (h : remainingSteps l = 0) :
    l.all (fun th => decide (th.pc = Pc.done)) = true := by
  induction l with
  | nil => rfl
  | cons a l ih =>
    unfold remainingSteps at h ih
    simp only [List.map_cons, List.sum_cons] at h
    have ha : a.pc.remaining = 0 := by omega
    have hd : a.pc = Pc.done := by
      cases hp : a.pc <;> rw [hp] at ha <;> simp [Pc.remaining] at ha
    simp only [List.all_cons, Bool.and_eq_true, decide_eq_true_eq]
    exact ⟨hd, ih (by omega)⟩

theorem remaining_set (l : List Thread) (t : Nat) (a x : Thread) (h : l[t]? = some a) :
    remainingSteps (l.set t x) + a.pc.remaining = remainingSteps l + x.pc.remaining :=
  sum_map_set _ l t a x h

/-- While a thread is not done, some thread can take a step that brings it forward. -/
theorem exists_step (s : State) (hI : Inv s) (hpos : 0 < remainingSteps s.threads) :
    ∃ t, remainingSteps (step s t).threads + 1 = remainingSteps s.threads := by
  rcases hI.2 with ⟨hf, hall⟩ | ⟨-, t, th, h, hc, -, -⟩
  · obtain ⟨u, th, hu, hr⟩ := exists_pos_of_sum_pos _ s.threads hpos
    have hnc := hall u th hu
    have hpc : th.pc = Pc.lock := by
      cases hp : th.pc <;> rw [hp] at hnc hr <;> simp [Pc.critical, Pc.remaining] at hnc hr
    refine ⟨u, ?_⟩
    rw [step_lock_free s u th hu hpc hf]
    have := remaining_set s.threads u th { th with pc := Pc.load } hu
    simp only [hpc, Pc.remaining] at this
    show remainingSteps (s.threads.set u { th with pc := Pc.load }) + 1 = _
    omega
  · refine ⟨t, ?_⟩
    cases hpc : th.pc with
    | lock => rw [hpc] at hc; cases hc
    | done => rw [hpc] at hc; cases hc
    | load =>
      rw [step_load s t th h hpc]
      have := remaining_set s.threads t th { th with pc := Pc.store s.sum } h
      simp only [hpc, Pc.remaining] at this
      show remainingSteps (s.threads.set t { th with pc := Pc.store s.sum }) + 1 = _
      omega
    | store reg =>
      rw [step_store s t th reg h hpc]
      have := remaining_set s.threads t th { th with pc := Pc.unlock } h
      simp only [hpc, Pc.remaining] at this
      show remainingSteps (s.threads.set t { th with pc := Pc.unlock }) + 1 = _
      omega
    | unlock =>
      rw [step_unlock s t th h hpc]
      have := remaining_set s.threads t th { th with pc := Pc.done } h
      simp only [hpc, Pc.remaining] at this
      show remainingSteps (s.threads.set t { th with pc := Pc.done }) + 1 = _
      omega

/-- From every state of an interleaved run the threads can all finish. -/
theorem can_finish : ∀ (n : Nat) (s : State), Inv s → remainingSteps s.threads = n →
    ∃ sched, allDone (run s sched) = true := by
  intro n
  induction n with
  | zero =>
    intro s _ h0
    exact ⟨[], allDone_of_remaining_zero s.threads h0⟩
  | succ n ih =>
    intro s hI hn
    obtain ⟨t, ht⟩ := exists_step s hI (by omega)
    obtain ⟨sched, hs⟩ := ih (step s t) (inv_step s t hI) (by omega)
    exact ⟨t :: sched, hs⟩

theorem critical_unique (s : State) (hI : Inv s) (t u : Nat) (tht thu : Thread)
    (ht : s.threads[t]? = some tht) (hu : s.threads[u]? = some thu)
    (hct : tht.pc.critical = true) (hcu : thu.pc.critical = true) : t = u := by
  by_contra hne
  obtain ⟨-, -, hoth⟩ := inv_critical s hI t tht ht hct
  rw [hoth u thu (fun h => hne h.symm) hu] at hcu
  cases hcu

/-! ## The claims -/

/-- C1: for every sequence and every split of its index range into four contiguous
ranges `[0,a) [a,b) [b,c) [c,len)`, the mutex strategy and the spinlock strategy (for
every order of the merge steps), the async strategy and the promise strategy all return
the result of the single-threaded loop, a 64-bit unsigned value. -/
theorem strategies_agree_with_loop (vec : List Int) (a b c : Nat) (hab : a ≤ b)
    (hbc : b ≤ c) (hc : c ≤ vec.length) (order_1 order_4 : List Nat)
    (h1 : order_1 ∈ orders) (h4 : order_4 ∈ orders) :
    threads_mutex vec 0 a b c vec.length order_1 = some (loop_sum vec)
    ∧ threads_spinlock vec 0 a b c vec.length order_4 = some (loop_sum vec)
    ∧ async_sum vec 0 a b c vec.length = some (loop_sum vec)
    ∧ promise_sum vec 0 a b c vec.length = some (loop_sum vec)
    ∧ loop_sum vec < 2 ^ 64 := by
  refine ⟨threads_mutex_exact vec a b c hab hbc hc order_1 h1, ?_,
    async_sum_exact vec a b c hab hbc hc, ?_, ?_⟩
  · unfold threads_spinlock
    rw [merge_spinlock_eq]
    exact threads_mutex_exact vec a b c hab hbc hc order_4 h4
  · rw [promise_sum_eq]
    exact async_sum_exact vec a b c hab hbc hc
  · rw [loop_sum_exact]
    omega

/-- C1 at `[1,2,3,4,5,6,7,8]` with ranges of size 2: the partial sums are `3, 7, 11, 15`
and every strategy, like the single-threaded loop, gives `36`. -/
theorem strategies_agree_with_loop_witness :
    [my_sum_async [1, 2, 3, 4, 5, 6, 7, 8] 0 2, my_sum_async [1, 2, 3, 4, 5, 6, 7, 8] 2 4,
      my_sum_async [1, 2, 3, 4, 5, 6, 7, 8] 4 6, my_sum_async [1, 2, 3, 4, 5, 6, 7, 8] 6 8]
      = [some 3, some 7, some 11, some 15]
    ∧ loop_sum [1, 2, 3, 4, 5, 6, 7, 8] = 36
    ∧ threads_mutex [1, 2, 3, 4, 5, 6, 7, 8] 0 2 4 6 8 [2, 0, 3, 1] = some 36
    ∧ threads_spinlock [1, 2, 3, 4, 5, 6, 7, 8] 0 2 4 6 8 [3, 1, 0, 2] = some 36
    ∧ async_sum [1, 2, 3, 4, 5, 6, 7, 8] 0 2 4 6 8 = some 36
    ∧ promise_sum [1, 2, 3, 4, 5, 6, 7, 8] 0 2 4 6 8 = some 36
    ∧ loop_sum [1, 2, 3, 4, 5, 6, 7, 8] < 2 ^ 64 :=
  ⟨by decide, by decide,
    strategies_agree_with_loop [1, 2, 3, 4, 5, 6, 7, 8] 2 4 6 (by decide) (by decide)
      (by decide) [2, 0, 3, 1] [3, 1, 0, 2] (List.mem_permutations.2 (by decide))
      (List.mem_permutations.2 (by decide))⟩

/-- C2: the four `(beg, end)` pairs that `main` builds from `0, first, second, third,
fourth` are `[0,L/4) [L/4,2L/4) [2L/4,3L/4) [3L/4,L)` for `L = size = 100000000`: exactly
four, each of size `L/4 = 25000000`, ascending, contiguous, pairwise disjoint, and an
index lies in one of them exactly when it is below `L`. -/
theorem main_partitions_cover :
    size = 100000000
    ∧ ranges 0 first second third fourth
        = [(0, size / 4), (size / 4, 2 * size / 4), (2 * size / 4, 3 * size / 4),
            (3 * size / 4, size)]
    ∧ (ranges 0 first second third fourth).length = 4
    ∧ size / 4 = 25000000
    ∧ (∀ r ∈ ranges 0 first second third fourth, r.2 - r.1 = size / 4 ∧ r.1 < r.2)
    ∧ List.Pairwise (fun r s : Nat × Nat => r.2 ≤ s.1) (ranges 0 first second third fourth)
    ∧ List.Chain' (fun r s : Nat × Nat => r.2 = s.1) (ranges 0 first second third fourth)
    ∧ List.Pairwise (fun r s : Nat × Nat => ∀ i, ¬ ((r.1 ≤ i ∧ i < r.2) ∧ (s.1 ≤ i ∧ i < s.2)))
        (ranges 0 first second third fourth)
    ∧ ∀ i, i < size ↔ ∃ r ∈ ranges 0 first second third fourth, r.1 ≤ i ∧ i < r.2 := by
  refine ⟨rfl, by decide, rfl, by decide, ?_, ?_, ?_, ?_, ?_⟩
  · simp only [ranges, first, second, third, fourth, size, List.mem_cons, List.mem_singleton,
      List.not_mem_nil, or_false]
    rintro r (rfl | rfl | rfl | rfl) <;> simp
  · simp [ranges, first, second, third, fourth]
  · simp [ranges]
  · simp only [ranges, first, second, third, fourth, List.pairwise_cons, List.mem_cons,
      List.mem_singleton, List.not_mem_nil, List.Pairwise.nil, or_false]
    refine ⟨?_, ?_, ?_, ?_, trivial⟩
    · rintro s (rfl | rfl | rfl) i <;> dsimp only <;> omega
    · rintro s (rfl | rfl) i <;> dsimp only <;> omega
    · rintro s rfl i
      dsimp only
      omega
    · intro s hs
      exact hs.elim
  · intro i
    simp only [ranges, first, second, third, fourth, size, List.mem_cons, List.mem_singleton,
      List.not_mem_nil, or_false, exists_eq_or_imp, exists_eq_left]
    omega

/-- C3: for every range `[beg, end)` inside the sequence, `my_sum_async` returns a value
(no error), namely the mathematical sum of `vec[beg..end)` reduced modulo `2 ^ 64`; the
same value is the sum modulo `2 ^ 64` of the elements converted to 64-bit unsigned. -/
theorem kernel_sum_mod_two_pow (vec : List Int) (beg end_ : Nat) (h1 : beg ≤ end_)
    (h2 : end_ ≤ vec.length) :
    my_sum_async vec beg end_ = some (rangeSum vec beg end_ % 2 ^ 64).toNat
    ∧ my_sum_async vec beg end_
        = some ((((vec.drop beg).take (end_ - beg)).map toU64).sum % 2 ^ 64) := by
  refine ⟨async_exact vec beg end_ h1 h2, ?_⟩
  rw [async_exact vec beg end_ h1 h2, sum_map_toU64]
  rfl

/-- C3 on a sequence with negative elements: `-1 + 2147483647 - 2147483648 = -2` is
returned as `2 ^ 64 - 2`, and `-1` alone as `2 ^ 64 - 1`. -/
theorem kernel_sum_mod_two_pow_witness :
    my_sum_async [-1, 2147483647, -2147483648, 5] 0 3 = some 18446744073709551614
    ∧ my_sum_async [-1, 2147483647, -2147483648, 5] 0 1 = some 18446744073709551615
    ∧ my_sum_async [-1, 2147483647, -2147483648, 5] 0 3
        = some (rangeSum [-1, 2147483647, -2147483648, 5] 0 3 % 2 ^ 64).toNat :=
  ⟨by decide, by decide,
    (kernel_sum_mod_two_pow [-1, 2147483647, -2147483648, 5] 0 3 (by decide) (by decide)).1⟩

/-- C4: in the mutex and in the spinlock aggregator, for every sequence, every four
ranges and each of the 24 orders of the four merge steps on an accumulator started at 0,
the final accumulator is the sum modulo `2 ^ 64` of the four partial sums `tmp_sum`
(and there is no result in any order when a worker has none). -/
theorem merge_order_independent (vec : List Int) (r0 r1 r2 r3 : Nat × Nat)
    (order : List Nat) (h : order ∈ orders) :
    orders.length = 24
    ∧ merge_mutex vec [r0, r1, r2, r3] order 0
        = add_parts (my_sum_loop vec (r0.2 - r0.1) r0.1 0) (my_sum_loop vec (r1.2 - r1.1) r1.1 0)
            (my_sum_loop vec (r2.2 - r2.1) r2.1 0) (my_sum_loop vec (r3.2 - r3.1) r3.1 0)
    ∧ merge_spinlock vec [r0, r1, r2, r3] order 0
        = add_parts (my_sum_spinlock_loop vec (r0.2 - r0.1) r0.1 0)
            (my_sum_spinlock_loop vec (r1.2 - r1.1) r1.1 0)
            (my_sum_spinlock_loop vec (r2.2 - r2.1) r2.1 0)
            (my_sum_spinlock_loop vec (r3.2 - r3.1) r3.1 0) := by
  refine ⟨orders_length, ?_, ?_⟩
  · simp only [my_sum_loop_eq]
    exact four_merge_add_parts vec r0 r1 r2 r3 order h
  · simp only [my_sum_spinlock_loop_eq, merge_spinlock_eq]
    exact four_merge_add_parts vec r0 r1 r2 r3 order h

/-- C4 at `[1,2,3,4,5,6,7,8]` with the ranges `[0,2) [2,4) [4,6) [6,8)` merged in the
order `3, 0, 2, 1`: the accumulator ends at `3 + 7 + 11 + 15 = 36`. -/
theorem merge_order_independent_witness :
    merge_mutex [1, 2, 3, 4, 5, 6, 7, 8] [(0, 2), (2, 4), (4, 6), (6, 8)] [3, 0, 2, 1] 0
      = some 36
    ∧ merge_spinlock [1, 2, 3, 4, 5, 6, 7, 8] [(0, 2), (2, 4), (4, 6), (6, 8)] [3, 0, 2, 1] 0
      = some 36 :=
  (merge_order_independent [1, 2, 3, 4, 5, 6, 7, 8] (0, 2) (2, 4) (4, 6) (6, 8) [3, 0, 2, 1]
    (List.mem_permutations.2 (by decide))).2

/-- C5: (a) `my_sum_async` returns the same value on two sequences that differ only by a
permutation of the elements at the indices `beg .. end - 1`; (b) for `beg ≤ mid ≤ end`
inside the sequence, `my_sum_async vec beg end` is the sum modulo `2 ^ 64` of
`my_sum_async vec beg mid` and `my_sum_async vec mid end`. -/
theorem kernel_reorder_and_split :
    (∀ (vec vec' : List Int) (beg end_ : Nat), beg ≤ end_ → end_ ≤ vec.length →
      permutedWithin vec vec' beg end_ →
      my_sum_async vec' beg end_ = my_sum_async vec beg end_)
    ∧ (∀ (vec : List Int) (beg mid end_ : Nat), beg ≤ mid → mid ≤ end_ → end_ ≤ vec.length →
      ∃ x y, my_sum_async vec beg mid = some x ∧ my_sum_async vec mid end_ = some y
        ∧ my_sum_async vec beg end_ = some ((x + y) % 2 ^ 64)) := by
  constructor
  · intro vec vec' beg end_ h1 h2 hp
    rcases Nat.eq_or_lt_of_le h1 with rfl | hlt
    · rw [async_empty, async_empty]
    · rw [async_exact vec beg end_ h1 h2,
        async_exact vec' beg end_ h1 (permutedWithin_length vec vec' beg end_ hlt h2 hp),
        rangeSum_perm vec vec' beg end_ hp]
  · intro vec beg mid end_ h1 h2 h3
    refine ⟨_, _, async_exact vec beg mid h1 (by omega), async_exact vec mid end_ h2 h3, ?_⟩
    rw [async_exact vec beg end_ (by omega) h3, rangeSum_split vec beg mid end_ h1 h2]
    congr 1
    omega

/-- C5 at `[9, 1, -2, 3, 9]`: permuting the indices `1..3` keeps the sum of `[1,4)` at `2`,
and `[1,4)` splits at `2` into `1` and `1`. -/
theorem kernel_reorder_and_split_witness :
    (my_sum_async [9, 3, 1, -2, 9] 1 4 = my_sum_async [9, 1, -2, 3, 9] 1 4
      ∧ my_sum_async [9, 1, -2, 3, 9] 1 4 = some 2)
    ∧ ∃ x y, my_sum_async [9, 1, -2, 3, 9] 1 2 = some x
        ∧ my_sum_async [9, 1, -2, 3, 9] 2 4 = some y
        ∧ my_sum_async [9, 1, -2, 3, 9] 1 4 = some ((x + y) % 2 ^ 64) :=
  ⟨⟨kernel_reorder_and_split.1 [9, 1, -2, 3, 9] [9, 3, 1, -2, 9] 1 4 (by decide) (by decide)
      ⟨by decide, by decide, by decide⟩, by decide⟩,
    kernel_reorder_and_split.2 [9, 1, -2, 3, 9] 1 2 4 (by decide) (by decide) (by decide)⟩

/-- C6: for every sequence, the empty one included, and every index `beg`, the empty
range `[beg, beg)` reduces to 0 without a read (so also on the empty sequence, where any
read is out of range) and without error: `my_sum_async` returns 0, `my_sum_promise`
delivers 0, and `my_sum` and `my_sum_spinlock` leave the accumulator unchanged. -/
theorem empty_partition (vec : List Int) (beg sum : Nat) (hs : sum < 2 ^ 64) :
    my_sum_async vec beg beg = some 0
    ∧ my_sum_async [] beg beg = some 0
    ∧ my_sum_promise { value := none } vec beg beg = some { value := some 0 }
    ∧ (my_sum_promise { value := none } vec beg beg).bind Promise.get = some 0
    ∧ my_sum sum vec beg beg = some sum
    ∧ my_sum_spinlock sum vec beg beg = some sum := by
  have hmod : (sum + 0) % 2 ^ 64 = sum := by omega
  refine ⟨async_empty vec beg, async_empty [] beg, ?_, ?_, ?_, ?_⟩
  · rw [my_sum_promise_eq, async_empty]
    rfl
  · rw [my_sum_promise_eq, async_empty]
    rfl
  · rw [my_sum_eq, async_empty, Option.map_some', hmod]
  · rw [my_sum_spinlock_eq, async_empty, Option.map_some', hmod]

/-- C6 on the empty sequence at index 5 with the accumulator at 7. -/
theorem empty_partition_witness :
    my_sum_async [] 5 5 = some 0
    ∧ my_sum_promise { value := none } [] 5 5 = some { value := some 0 }
    ∧ my_sum 7 [] 5 5 = some 7
    ∧ my_sum_spinlock 7 [] 5 5 = some 7 :=
  have h := empty_partition [] 5 7 (by norm_num)
  ⟨h.1, h.2.2.1, h.2.2.2.2.1, h.2.2.2.2.2⟩

/-- C7: spinlock mutual exclusion. `N` threads each run `sp_lock.lock()`, add 1 to the
shared counter (a read and a write of `sum`) and run `sp_lock.unlock()`. After every
interleaving `sched` of their steps, at most one thread is between a `lock()` that
returned and its `unlock()`; once all threads are done the counter is `N` (as a 64-bit
unsigned value; `N` itself when `N < 2 ^ 64`): no update is lost; and the threads can
always all finish from there. -/
theorem spinlock_mutual_exclusion (N : Nat) (sched : List Nat) :
    (∀ (t u : Nat) (tht thu : Thread),
        (run (init (List.replicate N 1)) sched).threads[t]? = some tht →
        (run (init (List.replicate N 1)) sched).threads[u]? = some thu →
        tht.pc.critical = true → thu.pc.critical = true → t = u)
    ∧ (allDone (run (init (List.replicate N 1)) sched) = true →
        (run (init (List.replicate N 1)) sched).sum = N % 2 ^ 64)
    ∧ (N < 2 ^ 64 → allDone (run (init (List.replicate N 1)) sched) = true →
        (run (init (List.replicate N 1)) sched).sum = N)
    ∧ ∃ more, allDone (run (init (List.replicate N 1)) (sched ++ more)) = true := by
  have hI := inv_run sched (init (List.replicate N 1)) (inv_init _)
  have hsum : (List.replicate N 1).sum = N := by simp
  refine ⟨critical_unique _ hI, ?_, ?_, ?_⟩
  · intro h
    rw [final_sum _ sched h, hsum]
  · intro hN h
    rw [final_sum _ sched h, hsum]
    exact Nat.mod_eq_of_lt hN
  · obtain ⟨more, hm⟩ := can_finish _ _ hI rfl
    exact ⟨more, by rw [run_append]; exact hm⟩

/-- C7 for three threads in an interleaving in which threads 0 and 2 spin while thread 1
holds the lock: no update is lost, the counter ends at 3. -/
theorem spinlock_mutual_exclusion_witness :
    allDone (run (init (List.replicate 3 1))
        [1, 0, 1, 2, 1, 0, 1, 2, 2, 0, 2, 2, 2, 0, 1, 0, 0, 0]) = true
    ∧ (run (init (List.replicate 3 1))
        [1, 0, 1, 2, 1, 0, 1, 2, 2, 0, 2, 2, 2, 0, 1, 0, 0, 0]).sum = 3 :=
  ⟨by decide,
    (spinlock_mutual_exclusion 3 [1, 0, 1, 2, 1, 0, 1, 2, 2, 0, 2, 2, 2, 0, 1, 0, 0, 0]).2.2.1
      (by norm_num) (by decide)⟩

/-- C8: the four copies of the reduction kernel agree. For every range `[beg, end)` inside
the sequence and every accumulator value `s`, `my_sum_async` returns some `k`, `my_sum` and
`my_sum_spinlock` leave the accumulator at `(s + k) mod 2 ^ 64`, and `my_sum_promise` sets
its promise to exactly `k`. -/
theorem workers_agree (vec : List Int) (beg end_ s : Nat) (h1 : beg ≤ end_)
    (h2 : end_ ≤ vec.length) :
    ∃ k, my_sum_async vec beg end_ = some k
      ∧ my_sum s vec beg end_ = some ((s + k) % 2 ^ 64)
      ∧ my_sum_spinlock s vec beg end_ = some ((s + k) % 2 ^ 64)
      ∧ my_sum_promise { value := none } vec beg end_ = some { value := some k } := by
  refine ⟨_, async_exact vec beg end_ h1 h2, ?_, ?_, ?_⟩
  · rw [my_sum_eq, async_exact vec beg end_ h1 h2]
    rfl
  · rw [my_sum_spinlock_eq, async_exact vec beg end_ h1 h2]
    rfl
  · rw [my_sum_promise_eq, async_exact vec beg end_ h1 h2]
    rfl

/-- C8 at `[4, -1, 6, 2]`, range `[1, 4)`, accumulator `100`: the kernel gives `7`, the
accumulator becomes `107` (added to, not overwritten) and the promise holds `7`. -/
theorem workers_agree_witness :
    (∃ k, my_sum_async [4, -1, 6, 2] 1 4 = some k
      ∧ my_sum 100 [4, -1, 6, 2] 1 4 = some ((100 + k) % 2 ^ 64)
      ∧ my_sum_spinlock 100 [4, -1, 6, 2] 1 4 = some ((100 + k) % 2 ^ 64)
      ∧ my_sum_promise { value := none } [4, -1, 6, 2] 1 4 = some { value := some k })
    ∧ my_sum_async [4, -1, 6, 2] 1 4 = some 7
    ∧ my_sum 100 [4, -1, 6, 2] 1 4 = some 107
    ∧ my_sum_spinlock 100 [4, -1, 6, 2] 1 4 = some 107
    ∧ my_sum_promise { value := none } [4, -1, 6, 2] 1 4 = some { value := some 7 } :=
  ⟨workers_agree [4, -1, 6, 2] 1 4 100 (by decide) (by decide),
    by decide, by decide, by decide, by decide⟩

/-- C9: in `main` (a sequence of `size = 100000000` draws, each between 1 and 10) nothing
wraps around. In each of the four workers the value of `tmp_sum` at every index `j` of its
range, the value of the single-threaded `sum` after every number `j` of elements, and the
accumulator after every number `k` of merge steps (in every order) are the exact
mathematical sums of the elements added so far; each partial sum lies in
`[25000000, 250000000]`; and the five printed results are all the exact mathematical sum
of the sequence, which lies in `[100000000, 1000000000]`. -/
theorem main_no_wraparound (draw : Nat → Int) (hdraw : ∀ k, 1 ≤ draw k ∧ draw k ≤ 10)
    (order_1 order_4 : List Nat) (h1 : order_1 ∈ orders) (h4 : order_4 ∈ orders) :
    (∀ r ∈ ranges 0 first second third fourth, ∀ j, r.1 ≤ j → j ≤ r.2 →
      ∃ t : Nat, (t : Int) = rangeSum (random_values draw) r.1 j
        ∧ my_sum_loop (random_values draw) (j - r.1) r.1 0 = some t
        ∧ my_sum_loop (random_values draw) (r.2 - r.1) r.1 0
            = my_sum_loop (random_values draw) (r.2 - j) j t
        ∧ my_sum_async_loop (random_values draw) (j - r.1) r.1 0 = some t
        ∧ my_sum_async_loop (random_values draw) (r.2 - r.1) r.1 0
            = my_sum_async_loop (random_values draw) (r.2 - j) j t
        ∧ my_sum_promise_loop (random_values draw) (j - r.1) r.1 0 = some t
        ∧ my_sum_promise_loop (random_values draw) (r.2 - r.1) r.1 0
            = my_sum_promise_loop (random_values draw) (r.2 - j) j t
        ∧ my_sum_spinlock_loop (random_values draw) (j - r.1) r.1 0 = some t
        ∧ my_sum_spinlock_loop (random_values draw) (r.2 - r.1) r.1 0
            = my_sum_spinlock_loop (random_values draw) (r.2 - j) j t)
    ∧ (∀ r ∈ ranges 0 first second third fourth,
      ∃ p : Nat, my_sum_async (random_values draw) r.1 r.2 = some p
        ∧ (p : Int) = rangeSum (random_values draw) r.1 r.2
        ∧ 25000000 ≤ p ∧ p ≤ 250000000)
    ∧ (∀ j, (loop_sum ((random_values draw).take j) : Int) = ((random_values draw).take j).sum
        ∧ loop_sum (random_values draw)
            = ((random_values draw).drop j).foldl (fun sum n => (sum + toU64 n) % 2 ^ 64)
                (loop_sum ((random_values draw).take j)))
    ∧ (∀ k, ∃ acc : Nat,
        merge_mutex (random_values draw) (ranges 0 first second third fourth)
          (order_1.take k) 0 = some acc
        ∧ (acc : Int) = ((order_1.take k).map
            (threadSum (random_values draw) (ranges 0 first second third fourth))).sum
        ∧ merge_mutex (random_values draw) (ranges 0 first second third fourth) order_1 0
          = merge_mutex (random_values draw) (ranges 0 first second third fourth)
              (order_1.drop k) acc)
    ∧ (∀ k, ∃ acc : Nat,
        merge_spinlock (random_values draw) (ranges 0 first second third fourth)
          (order_4.take k) 0 = some acc
        ∧ (acc : Int) = ((order_4.take k).map
            (threadSum (random_values draw) (ranges 0 first second third fourth))).sum
        ∧ merge_spinlock (random_values draw) (ranges 0 first second third fourth) order_4 0
          = merge_spinlock (random_values draw) (ranges 0 first second third fourth)
              (order_4.drop k) acc)
    ∧ ∃ S : Nat, main draw order_1 order_4 = some [S, S, S, S, S]
        ∧ (S : Int) = (random_values draw).sum ∧ 100000000 ≤ S ∧ S ≤ 1000000000 := by
  have hv := random_values_range draw hdraw
  have hlen := random_values_length draw
  have hs : size = 100000000 := rfl
  refine ⟨?_, ?_, ?_, ?_, ?_, ?_⟩
  · intro r hr j hj1 hj2
    have hb := main_ranges_in_size r hr
    obtain ⟨p, e, c, -, -⟩ := async_small (random_values draw) hv hlen r.1 j hj1
      (by rw [hlen]; omega)
    have hc := async_loop_continue (random_values draw) r.1 j r.2 p hj1 hj2 e
    simp only [my_sum_loop_eq, my_sum_promise_loop_eq, my_sum_spinlock_loop_eq]
    exact ⟨p, c, e, hc, e, hc, e, hc, e, hc⟩
  · intro r hr
    have hb := main_ranges_in_size r hr
    have hsz := main_ranges_size r hr
    obtain ⟨p, e, c, l, u⟩ := async_small (random_values draw) hv hlen r.1 r.2 hb.1
      (by rw [hlen]; exact hb.2)
    exact ⟨p, e, c, by omega, by omega⟩
  · intro j
    have hb := sum_bounds ((random_values draw).take j) (fun x hx => hv x (List.mem_of_mem_take hx))
    have hl : ((random_values draw).take j).length ≤ 100000000 := by
      rw [List.length_take, hlen, hs]
      omega
    constructor
    · rw [loop_sum_exact]
      omega
    · unfold loop_sum
      rw [← List.foldl_append, List.take_append_drop]
  · exact main_prefix_merge draw hdraw order_1 h1
  · intro k
    simp only [merge_spinlock_eq]
    exact main_prefix_merge draw hdraw order_4 h4 k
  · have hb := sum_bounds (random_values draw) hv
    rw [hlen, hs] at hb
    refine ⟨loop_sum (random_values draw), main_eq draw order_1 order_4 h1 h4, ?_, ?_, ?_⟩
      <;> rw [loop_sum_exact] <;> omega

/-- C9 for the draws `1, 2, ..., 10, 1, 2, ...`, the mutex threads merging in the order
`0, 1, 2, 3` and the spinlock threads in the order `3, 2, 1, 0`. -/
theorem main_no_wraparound_witness :
    ∃ S : Nat, main (fun k => ((k % 10 : Nat) : Int) + 1) [0, 1, 2, 3] [3, 2, 1, 0]
          = some [S, S, S, S, S]
      ∧ (S : Int) = (random_values (fun k => ((k % 10 : Nat) : Int) + 1)).sum
      ∧ 100000000 ≤ S ∧ S ≤ 1000000000 :=
  (main_no_wraparound (fun k => ((k % 10 : Nat) : Int) + 1) (fun k => by
      show 1 ≤ ((k % 10 : Nat) : Int) + 1 ∧ ((k % 10 : Nat) : Int) + 1 ≤ 10
      omega)
    [0, 1, 2, 3] [3, 2, 1, 0] (List.mem_permutations.2 (by decide))
    (List.mem_permutations.2 (by decide))).2.2.2.2.2

/-- C10: the sequence has exactly `size = 100000000` elements when the strategies run;
every index `i` of each of the four ranges that `main` passes to the workers is below
`size` and is an index of the sequence; so no worker takes the out-of-range branch of
`vec[i]`: each of the four workers returns a result on each range, and so does `main`
for every order of the merge steps, whereas a worker whose non-empty range ends beyond
the sequence returns none. -/
theorem main_reads_in_bounds (draw : Nat → Int) :
    (∀ (vec : List Int) (beg end_ sum : Nat), beg < end_ → vec.length < end_ →
        my_sum sum vec beg end_ = none ∧ my_sum_async vec beg end_ = none
        ∧ my_sum_promise { value := none } vec beg end_ = none
        ∧ my_sum_spinlock sum vec beg end_ = none)
    ∧ (random_values draw).length = size
    ∧ (∀ r ∈ ranges 0 first second third fourth, ∀ i, r.1 ≤ i → i < r.2 →
        i < size ∧ (random_values draw)[i]? ≠ none)
    ∧ (∀ r ∈ ranges 0 first second third fourth, ∀ sum,
        (my_sum sum (random_values draw) r.1 r.2).isSome
        ∧ (my_sum_async (random_values draw) r.1 r.2).isSome
        ∧ (my_sum_promise { value := none } (random_values draw) r.1 r.2).isSome
        ∧ (my_sum_spinlock sum (random_values draw) r.1 r.2).isSome)
    ∧ ∀ order_1 ∈ orders, ∀ order_4 ∈ orders, (main draw order_1 order_4).isSome := by
  refine ⟨?_, random_values_length draw, ?_, ?_, ?_⟩
  · intro vec beg end_ sum h1 h2
    have he : my_sum_async vec beg end_ = none :=
      async_loop_none vec (end_ - beg) beg 0 (by omega) (by omega)
    rw [my_sum_eq, my_sum_spinlock_eq, my_sum_promise_eq, he]
    exact ⟨rfl, rfl, rfl, rfl⟩
  · intro r hr i _ hi
    have hlt : i < size := lt_of_lt_of_le hi (main_ranges_in_size r hr).2
    refine ⟨hlt, ?_⟩
    rw [List.getElem?_eq_getElem (by rw [random_values_length]; exact hlt)]
    exact Option.some_ne_none _
  · intro r hr sum
    have hb := main_ranges_in_size r hr
    have he := async_exact (random_values draw) r.1 r.2 hb.1
      (by rw [random_values_length]; exact hb.2)
    rw [my_sum_eq, my_sum_spinlock_eq, my_sum_promise_eq, he]
    exact ⟨rfl, rfl, rfl, rfl⟩
  · intro order_1 h1 order_4 h4
    rw [main_eq draw order_1 order_4 h1 h4]
    rfl

end SumOfVector
